import Mathlib

/-!
Shallow embedding of the board-game engine and fallback move selector of the
TransformerTournament repository (src/battle_ui.py, src/game.py,
src/llm_battle/agents/groq_agent.py, src/llm_battle/agents/google_agent.py),
with theorems settling the specification claims about them.

The board is the 8x8 numpy integer array `board`; we model it as a total
function from integer coordinates to cell values (0 = empty, 1 = player 1,
2 = player 2), with the playable region [0,8)x[0,8).  Mutation is modelled by
explicit state passing: each Python function that mutates `board` becomes a
Lean function returning the new board.
-/

namespace TT

/-- The 8x8 numpy board, as a total function on integer coordinates.
Only the region 0 ≤ r,c < 8 is meaningful; cell values are 0 (empty),
1 (player 1), 2 (player 2). -/
def Board := Int → Int → Nat

/-- `board = np.zeros((8, 8))`: the all-empty board (`reset_game`). -/
def emptyBoard : Board := fun _ _ => 0

/-- `board[r, c] = v`: pointwise update of the board. -/
def setCell (b : Board) (r c : Int) (v : Nat) : Board :=
  fun r' c' => if r' = r ∧ c' = c then v else b r' c'

/-- `0 <= row < GRID_SIZE and 0 <= col < GRID_SIZE` with `GRID_SIZE = 8`. -/
def inRangeB (r c : Int) : Bool := decide (0 ≤ r ∧ r < 8 ∧ 0 ≤ c ∧ c < 8)

/-- `is_valid_move(row, col)` from battle_ui.py / game.py: in range and empty. -/
def is_valid_move (b : Board) (row col : Int) : Bool :=
  inRangeB row col && (b row col == 0)

/-- `get_valid_moves()`: scan rows then columns, collecting valid cells. -/
def get_valid_moves (b : Board) : List (Int × Int) :=
  (List.range 8).flatMap (fun r =>
    (List.range 8).filterMap (fun c =>
      if is_valid_move b (r : Int) (c : Int) then some ((r : Int), (c : Int)) else none))

/-- The capture directions of `make_move`: up, down, left, right (in code order). -/
def directions : List (Int × Int) := [(-1, 0), (1, 0), (0, -1), (0, 1)]

/-- The `if` condition of the capture loop, evaluated on a given board:
neighbor in range, occupied, and not the mover's own piece. -/
def eligible (b : Board) (row col : Int) (player : Nat) (d : Int × Int) : Bool :=
  inRangeB (row + d.1) (col + d.2) &&
    (b (row + d.1) (col + d.2) != 0) && (b (row + d.1) (col + d.2) != player)

/-- The capture loop of `make_move`: for each direction, if the neighbor on the
current (partially updated) board is an in-range enemy cell, flip it and count
it.  Returns the final board and the `captures` counter. -/
def capture_loop (row col : Int) (player : Nat) :
    List (Int × Int) → Board → Nat → Board × Nat
  | [], b, caps => (b, caps)
  | d :: rest, b, caps =>
      if eligible b row col player d then
        capture_loop row col player rest (setCell b (row + d.1) (col + d.2) player) (caps + 1)
      else
        capture_loop row col player rest b caps

/-- `make_move(row, col, player)` from battle_ui.py / game.py, with an
arbitrary direction list (the code uses `directions`): place the piece, then
run the capture loop.  The second component is the local `captures` counter. -/
def make_move_dirs (b : Board) (row col : Int) (player : Nat)
    (ds : List (Int × Int)) : Board × Nat :=
  capture_loop row col player ds (setCell b row col player) 0

/-- `make_move(row, col, player)`: the code's direction order up/down/left/right. -/
def make_move (b : Board) (row col : Int) (player : Nat) : Board × Nat :=
  make_move_dirs b row col player directions

/-- The value the Python `make_move` returns to its caller: the body has no
`return` statement, so every call returns `None` (never a list of flipped
coordinates). -/
def make_move_ret (_b : Board) (_row _col : Int) (_player : Nat) :
    Option (List (Int × Int)) := none

/-- The full cell list of the 8x8 region, row-major (`for row ... for col ...`). -/
def cellsList : List (Int × Int) :=
  (List.range 8).flatMap (fun r => (List.range 8).map (fun c => ((r : Int), (c : Int))))

/-- `is_board_full()`: `np.all(board != 0)` over the 8x8 region. -/
def is_board_full (b : Board) : Bool :=
  cellsList.all (fun q => b q.1 q.2 != 0)

/-- `count_pieces()`: `(np.sum(board == 1), np.sum(board == 2))`. -/
def count_pieces (b : Board) : Nat × Nat :=
  ((cellsList.filter (fun q => b q.1 q.2 == 1)).length,
   (cellsList.filter (fun q => b q.1 q.2 == 2)).length)

/-- Number of empty cells: `sum(row.count(0) for row in board)`. -/
def count_empty (b : Board) : Nat :=
  (cellsList.filter (fun q => b q.1 q.2 == 0)).length

/-- Number of occupied cells of the 8x8 region. -/
def count_occupied (b : Board) : Nat :=
  (cellsList.filter (fun q => b q.1 q.2 != 0)).length

/-- The derived game outcome of the spec's data model. -/
inductive GameOutcome where
  | player1Wins
  | player2Wins
  | tie
deriving DecidableEq

/-- `check_game_over()` from battle_ui.py (same logic as the game-over block of
game.py's `main`): nothing is decided unless `is_board_full()`; on a full board
the piece counts are compared — `winner = 1`, `winner = 2`, or the tie branch
(`winner = None` with `battle_stats["ties"]` incremented, the "IT'S A TIE"
message). `none` models `game_over` staying `False`. -/
def check_game_over (b : Board) : Option GameOutcome :=
  if is_board_full b then
    some (if (count_pieces b).1 > (count_pieces b).2 then GameOutcome.player1Wins
          else if (count_pieces b).2 > (count_pieces b).1 then GameOutcome.player2Wins
          else GameOutcome.tie)
  else none

/-- Well-formed board: every cell of the 8x8 region holds 0, 1 or 2. -/
def WF (b : Board) : Prop := ∀ i j : Fin 8, b ((i : Nat) : Int) ((j : Nat) : Int) ≤ 2

instance : DecidablePred WF := fun b =>
  inferInstanceAs (Decidable (∀ i j : Fin 8, b ((i : Nat) : Int) ((j : Nat) : Int) ≤ 2))

/-! ### The fallback move selector of the LLM agents
(groq_agent.py `_get_strategic_fallback_move`, google_agent.py
`_get_best_strategic_move`; the scoring bodies are identical). -/

/-- The corner cells `[(0, 0), (0, 7), (7, 0), (7, 7)]`. -/
def corner_cells : List (Int × Int) := [(0, 0), (0, 7), (7, 0), (7, 7)]

/-- The 12 cells adjacent to a corner, as listed in the agents. -/
def corner_adjacent : List (Int × Int) :=
  [(0, 1), (1, 0), (1, 1), (0, 6), (1, 6), (1, 7),
   (6, 0), (6, 1), (7, 1), (6, 6), (6, 7), (7, 6)]

/-- The agents' direction list: right, down, left, up. -/
def agent_directions : List (Int × Int) := [(0, 1), (1, 0), (0, -1), (-1, 0)]

/-- `_count_potential_captures(board, row, col, player)`: the number of the four
orthogonal neighbors that are in range and hold the opponent `3 - player`. -/
def count_potential_captures (b : Board) (row col : Int) (player : Nat) : Nat :=
  (agent_directions.filter (fun d =>
    inRangeB (row + d.1) (col + d.2) && (b (row + d.1) (col + d.2) == 3 - player))).length

/-- Twice the Manhattan distance from `(m.1, m.2)` to the board center
`(3.5, 3.5)`: the agents' `center_distance = abs(r - 3.5) + abs(c - 3.5)` is
`center_dist2 m / 2`, and `center_distance < 2` is `center_dist2 m < 4`
(scaled by 2 to stay in integers). -/
def center_dist2 (m : Int × Int) : Nat :=
  (2 * m.1 - 7).natAbs + (2 * m.2 - 7).natAbs

/-- The per-move score of the agents' fallback selector: +100 for a corner,
else −50 next to a corner, else +30 on an edge; plus 20 per potential capture;
plus 15 in the early game (more than 40 empty cells) near the center. -/
def move_score (b : Board) (player : Nat) (m : Int × Int) : Int :=
  let base : Int :=
    if m ∈ corner_cells then 100
    else if m ∈ corner_adjacent then -50
    else if m.1 = 0 ∨ m.1 = 7 ∨ m.2 = 0 ∨ m.2 = 7 then 30
    else 0
  let withCaps : Int := base + 20 * (count_potential_captures b m.1 m.2 player : Int)
  if count_empty b > 40 ∧ center_dist2 m < 4 then withCaps + 15 else withCaps

/-- Python's `max` over a nonempty list (`max(move_scores.values())`);
`none` models the `ValueError` raised on an empty input. -/
def list_max : List Int → Option Int
  | [] => none
  | x :: xs => some (xs.foldl max x)

/-- `best_moves`: the moves whose score equals the maximal score (`[]` when
`valid_moves` is empty, where Python's `max` would raise). -/
def best_moves (b : Board) (moves : List (Int × Int)) (player : Nat) :
    List (Int × Int) :=
  match list_max (moves.map (move_score b player)) with
  | none => []
  | some s => moves.filter (fun m => move_score b player m == s)

/-- `_get_strategic_fallback_move(board, valid_moves, current_player)` from
groq_agent.py, with `random.choice(best_moves)` modelled by an arbitrary
index `pick` reduced modulo the number of tied maxima (uniform choice reaches
every index): returns `None` when `valid_moves` is empty. -/
def get_strategic_fallback_move (b : Board) (moves : List (Int × Int))
    (player : Nat) (pick : Nat) : Option (Int × Int) :=
  if moves.isEmpty then none
  else (best_moves b moves player).get? (pick % (best_moves b moves player).length)

/-- The call channel of groq_agent.py's fallback: it never raises — on an
empty `valid_moves` it returns the value `None` normally. -/
def groq_fallback_call (b : Board) (moves : List (Int × Int))
    (player : Nat) (pick : Nat) : Except String (Option (Int × Int)) :=
  Except.ok (get_strategic_fallback_move b moves player pick)

/-- The call channel of google_agent.py's `_get_best_strategic_move`: it has no
empty-list guard, so `max(move_scores.values())` raises `ValueError` on an
empty `valid_moves`; otherwise it returns a tied-maximum move (same model of
`random.choice` as above). -/
def google_fallback_call (b : Board) (moves : List (Int × Int))
    (player : Nat) (pick : Nat) : Except String (Option (Int × Int)) :=
  if moves.isEmpty then Except.error "max() arg is an empty sequence"
  else Except.ok
    ((best_moves b moves player).get? (pick % (best_moves b moves player).length))

/-! ### The driving game loop (battle_ui.py `run_game_loop`) -/

/-- The call channel of the Python `make_move` at an in-range cell: the
function performs no precondition check, numpy indexing succeeds for
`0 ≤ row, col < 8`, so the call mutates the board and returns normally even
when the cell is occupied. -/
def make_move_call (b : Board) (row col : Int) (player : Nat) :
    Except String (Board × Nat) :=
  if inRangeB row col then Except.ok (make_move b row col player)
  else Except.error "IndexError"

/-- One move-handling step of `run_game_loop`: the provider's proposal is
either a coordinate pair or a raised exception.  A valid proposal is applied
with `make_move` and the player switched; an invalid or failed proposal leads
to `random.choice(get_valid_moves())` (modelled by the index `pick`) when any
valid move exists, applied the same way; with no valid move nothing happens.
Returns the new board and the player to move next. -/
def loop_step (b : Board) (player : Nat) (proposal : Except String (Int × Int))
    (pick : Nat) : Board × Nat :=
  match proposal with
  | Except.ok (row, col) =>
      if is_valid_move b row col then ((make_move b row col player).1, 3 - player)
      else
        let vm := get_valid_moves b
        if vm.isEmpty then (b, player)
        else
          let m := vm.getD (pick % vm.length) (0, 0)
          ((make_move b m.1 m.2 player).1, 3 - player)
  | Except.error _ =>
      let vm := get_valid_moves b
      if vm.isEmpty then (b, player)
      else
        let m := vm.getD (pick % vm.length) (0, 0)
        ((make_move b m.1 m.2 player).1, 3 - player)

/-! ### Reachable boards -/

/-- Boards reachable from the all-empty board by valid `make_move` calls of
players 1 and 2 (the only mutation path of the game loop). -/
inductive Reachable : Board → Prop where
  | init : Reachable emptyBoard
  | step (b : Board) (r c : Int) (p : Nat) :
      Reachable b → is_valid_move b r c = true → (p = 1 ∨ p = 2) →
      Reachable (make_move b r c p).1

/-! ### Concrete boards used as witnesses -/

/-- The board of the spec's concrete scenario: player 2 on the four orthogonal
neighbors of (3,3), all else empty. -/
def crossBoard : Board := fun r c =>
  if (r = 3 ∧ c = 4) ∨ (r = 2 ∧ c = 3) ∨ (r = 4 ∧ c = 3) ∨ (r = 3 ∧ c = 2) then 2 else 0

/-- A board with a single player-2 piece at (0,0). -/
def occBoard : Board := fun r c => if r = 0 ∧ c = 0 then 2 else 0

/-- A full board holding 33 player-1 cells and 31 player-2 cells
(player 1 owns rows 0–3 and (4,0); player 2 the rest). -/
def fullBoard33 : Board := fun r c =>
  if 0 ≤ r ∧ r < 8 ∧ 0 ≤ c ∧ c < 8 then
    (if r < 4 ∨ (r = 4 ∧ c = 0) then 1 else 2)
  else 0

/-- The cell a direction offset points at from `(row, col)`. -/
def nbr (row col : Int) (d : Int × Int) : Int × Int := (row + d.1, col + d.2)

/-! ### Characterization of the capture loop -/

theorem setCell_self (b : Board) (r c : Int) (v : Nat) : setCell b r c v r c = v := by
  simp [setCell]

theorem setCell_other (b : Board) (r c : Int) (v : Nat) {r' c' : Int}
    (h : ¬(r' = r ∧ c' = c)) : setCell b r c v r' c' = b r' c' := by
  simp [setCell, h]

theorem eligible_congr {b bcur : Board} {row col : Int} {p : Nat} {d : Int × Int}
    (h : bcur (row + d.1) (col + d.2) = b (row + d.1) (col + d.2)) :
    eligible bcur row col p d = eligible b row col p d := by
  simp [eligible, h]

/-- The capture loop, run on a board agreeing with the pre-move board `b` at
every remaining neighbor cell (with those cells pairwise distinct), flips
exactly the neighbors eligible on `b` and counts them. -/
theorem capture_loop_spec (row col : Int) (p : Nat) (b : Board) :
    ∀ (ds : List (Int × Int)) (bcur : Board) (caps : Nat),
      (∀ d ∈ ds, bcur (row + d.1) (col + d.2) = b (row + d.1) (col + d.2)) →
      (ds.map (nbr row col)).Nodup →
      (∀ r' c' : Int,
        (capture_loop row col p ds bcur caps).1 r' c' =
          if (r', c') ∈ (ds.filter (eligible b row col p)).map (nbr row col)
          then p else bcur r' c')
      ∧ (capture_loop row col p ds bcur caps).2 =
          caps + (ds.filter (eligible b row col p)).length := by
  intro ds
  induction ds with
  | nil =>
      intro bcur caps _ _
      refine ⟨fun r' c' => ?_, by simp [capture_loop]⟩
      simp [capture_loop, List.filter_nil]
  | cons d rest ih =>
      intro bcur caps hagree hnodup
      have hd : bcur (row + d.1) (col + d.2) = b (row + d.1) (col + d.2) :=
        hagree d (List.mem_cons_self d rest)
      have helig : eligible bcur row col p d = eligible b row col p d :=
        eligible_congr hd
      rw [List.map_cons] at hnodup
      have hnd := List.nodup_cons.mp hnodup
      have hnotmem : (nbr row col d) ∉ rest.map (nbr row col) := hnd.1
      have hnodup' : (rest.map (nbr row col)).Nodup := hnd.2
      by_cases he : eligible b row col p d = true
      · have hstep : capture_loop row col p (d :: rest) bcur caps =
            capture_loop row col p rest
              (setCell bcur (row + d.1) (col + d.2) p) (caps + 1) := by
          simp [capture_loop, helig, he]
        have hagree' : ∀ e ∈ rest,
            setCell bcur (row + d.1) (col + d.2) p (row + e.1) (col + e.2) =
              b (row + e.1) (col + e.2) := by
          intro e he'
          have hne : nbr row col e ≠ nbr row col d := by
            intro hcontra
            exact hnotmem (hcontra ▸ List.mem_map_of_mem (nbr row col) he')
          have : ¬(row + e.1 = row + d.1 ∧ col + e.2 = col + d.2) := by
            intro hcont
            exact hne (Prod.ext hcont.1 hcont.2)
          rw [setCell_other _ _ _ _ this]
          exact hagree e (List.mem_cons_of_mem d he')
        obtain ⟨ih1, ih2⟩ := ih (setCell bcur (row + d.1) (col + d.2) p) (caps + 1)
          hagree' hnodup'
        have hfc : (d :: rest).filter (eligible b row col p) =
            d :: rest.filter (eligible b row col p) := by
          simp [List.filter_cons, he]
        refine ⟨fun r' c' => ?_, ?_⟩
        · rw [hstep, ih1 r' c']
          rw [hfc]
          by_cases hmem : (r', c') ∈ (rest.filter (eligible b row col p)).map (nbr row col)
          · simp [hmem, List.mem_cons]
          · simp only [hmem, if_false, List.map_cons, List.mem_cons, or_false]
            by_cases heq : (r', c') = nbr row col d
            · have h1 : r' = row + d.1 ∧ c' = col + d.2 := by
                constructor
                · exact congrArg Prod.fst heq
                · exact congrArg Prod.snd heq
              simp [hmem, heq, setCell, h1.1, h1.2, nbr]
            · have h2 : ¬(r' = row + d.1 ∧ c' = col + d.2) := by
                intro hcont
                exact heq (Prod.ext hcont.1 hcont.2)
              simp [hmem, heq, setCell_other _ _ _ _ h2]
        · rw [hstep, ih2, hfc]
          simp only [List.length_cons]
          omega
      · have he' : eligible b row col p d = false := by
          simpa using he
        have hstep : capture_loop row col p (d :: rest) bcur caps =
            capture_loop row col p rest bcur caps := by
          simp [capture_loop, helig, he']
        have hfc : (d :: rest).filter (eligible b row col p) =
            rest.filter (eligible b row col p) := by
          simp [List.filter_cons, he']
        have hagree' : ∀ e ∈ rest,
            bcur (row + e.1) (col + e.2) = b (row + e.1) (col + e.2) :=
          fun e he'' => hagree e (List.mem_cons_of_mem d he'')
        obtain ⟨ih1, ih2⟩ := ih bcur caps hagree' hnodup'
        refine ⟨fun r' c' => ?_, ?_⟩
        · rw [hstep, ih1 r' c', hfc]
        · rw [hstep, ih2, hfc]

theorem directions_mem {d : Int × Int} (h : d ∈ directions) : d.1 ≠ 0 ∨ d.2 ≠ 0 := by
  fin_cases h <;> simp

theorem nbr_nodup (row col : Int) : (directions.map (nbr row col)).Nodup := by
  simp [directions, nbr, List.nodup_cons, List.mem_cons, Prod.ext_iff]

/-- `make_move` with any permutation of the four directions: the final board is
the placed board with the neighbors eligible on the pre-move board flipped, and
the `captures` counter is their number. -/
theorem make_move_dirs_spec (b : Board) (row col : Int) (p : Nat)
    (ds : List (Int × Int)) (hperm : ds.Perm directions) :
    (∀ r' c' : Int, (make_move_dirs b row col p ds).1 r' c' =
        if (r', c') ∈ (ds.filter (eligible b row col p)).map (nbr row col)
        then p else setCell b row col p r' c')
    ∧ (make_move_dirs b row col p ds).2 =
        (ds.filter (eligible b row col p)).length := by
  have hsub : ∀ d ∈ ds, d ∈ directions := fun d hd => hperm.mem_iff.mp hd
  have hnodup : (ds.map (nbr row col)).Nodup :=
    ((hperm.map (nbr row col)).nodup_iff).mpr (nbr_nodup row col)
  have hagree : ∀ d ∈ ds,
      setCell b row col p (row + d.1) (col + d.2) = b (row + d.1) (col + d.2) := by
    intro d hd
    have hne := directions_mem (hsub d hd)
    apply setCell_other
    rcases hne with h | h
    · intro hc; exact h (by omega)
    · intro hc; exact h (by omega)
  have h := capture_loop_spec row col p b ds (setCell b row col p) 0 hagree hnodup
  exact ⟨h.1, by simpa using h.2⟩

/-- The code's `make_move`, characterized pointwise against the pre-move board. -/
theorem make_move_spec (b : Board) (row col : Int) (p : Nat) :
    (∀ r' c' : Int, (make_move b row col p).1 r' c' =
        if (r', c') ∈ (directions.filter (eligible b row col p)).map (nbr row col)
        then p else setCell b row col p r' c')
    ∧ (make_move b row col p).2 =
        (directions.filter (eligible b row col p)).length :=
  make_move_dirs_spec b row col p directions (List.Perm.refl _)

/-- Modelled from the spec's algorithm note: all four capture directions are
evaluated against the pre-move board in one pass and the eligible flips are
applied simultaneously to the placed board. -/
def make_move_simul (b : Board) (row col : Int) (p : Nat) : Board :=
  fun r' c' =>
    if (r', c') ∈ (directions.filter (eligible b row col p)).map (nbr row col)
    then p else setCell b row col p r' c'

theorem WF_le {b : Board} (hwf : WF b) {r c : Int} (h : inRangeB r c = true) :
    b r c ≤ 2 := by
  simp only [inRangeB, decide_eq_true_eq] at h
  obtain ⟨h1, h2, h3, h4⟩ := h
  have hr : r.toNat < 8 := by omega
  have hc : c.toNat < 8 := by omega
  have := hwf ⟨r.toNat, hr⟩ ⟨c.toNat, hc⟩
  simpa [Int.toNat_of_nonneg h1, Int.toNat_of_nonneg h3] using this

/-- On a well-formed board the capture-loop condition `!= 0 and != player` on a
neighbor is the same as that neighbor holding the opponent `3 - player`. -/
theorem eligible_eq_enemy {b : Board} (hwf : WF b) {p : Nat} (hp : p = 1 ∨ p = 2)
    (row col : Int) (d : Int × Int) :
    eligible b row col p d =
      (inRangeB (row + d.1) (col + d.2) && (b (row + d.1) (col + d.2) == 3 - p)) := by
  by_cases hin : inRangeB (row + d.1) (col + d.2) = true
  · have hle := WF_le hwf hin
    simp only [eligible, hin, Bool.true_and]
    rw [Bool.eq_iff_iff]
    simp only [Bool.and_eq_true, bne_iff_ne, ne_eq, beq_iff_eq]
    rcases hp with rfl | rfl <;> omega
  · rw [Bool.not_eq_true] at hin
    simp [eligible, hin]

/-- The placed cell is never one of the flipped neighbor cells. -/
theorem placed_not_flipped (b : Board) (row col : Int) (p : Nat) :
    (row, col) ∉ (directions.filter (eligible b row col p)).map (nbr row col) := by
  intro h
  obtain ⟨d, hd, hnd⟩ := List.mem_map.mp h
  have hdd : d ∈ directions := (List.mem_filter.mp hd).1
  have h1 : row + d.1 = row := congrArg Prod.fst hnd
  have h2 : col + d.2 = col := congrArg Prod.snd hnd
  rcases directions_mem hdd with h | h
  · exact h (by omega)
  · exact h (by omega)

/-- Membership of a cell among the flipped cells, phrased on the pre-move board. -/
theorem flipped_mem_iff {b : Board} (hwf : WF b) {p : Nat} (hp : p = 1 ∨ p = 2)
    (row col r' c' : Int) :
    ((r', c') ∈ (directions.filter (eligible b row col p)).map (nbr row col)) ↔
      ((r', c') ∈ directions.map (nbr row col) ∧ inRangeB r' c' = true ∧
        b r' c' = 3 - p) := by
  constructor
  · intro h
    obtain ⟨d, hd, hnd⟩ := List.mem_map.mp h
    obtain ⟨hdd, helig⟩ := List.mem_filter.mp hd
    have h1 : row + d.1 = r' := congrArg Prod.fst hnd
    have h2 : col + d.2 = c' := congrArg Prod.snd hnd
    rw [eligible_eq_enemy hwf hp, h1, h2] at helig
    have hb := Bool.and_eq_true_iff.mp helig
    exact ⟨List.mem_map.mpr ⟨d, hdd, hnd⟩, hb.1, beq_iff_eq.mp hb.2⟩
  · rintro ⟨hmem, hin, hval⟩
    obtain ⟨d, hdd, hnd⟩ := List.mem_map.mp hmem
    refine List.mem_map.mpr ⟨d, List.mem_filter.mpr ⟨hdd, ?_⟩, hnd⟩
    have h1 : row + d.1 = r' := congrArg Prod.fst hnd
    have h2 : col + d.2 = c' := congrArg Prod.snd hnd
    rw [eligible_eq_enemy hwf hp, h1, h2]
    simp [hin, hval]

/-- The `captures` counter equals the number of in-range orthogonal neighbors
holding the opponent on the pre-move board. -/
theorem make_move_captures_enemy_count {b : Board} (hwf : WF b) {p : Nat}
    (hp : p = 1 ∨ p = 2) (row col : Int) :
    (make_move b row col p).2 =
      ((directions.map (nbr row col)).filter
        (fun q => inRangeB q.1 q.2 && (b q.1 q.2 == 3 - p))).length := by
  rw [(make_move_spec b row col p).2, List.filter_map, List.length_map]
  exact congrArg List.length
    (List.filter_congr (fun d _ => eligible_eq_enemy hwf hp row col d))

/-- C1: on a well-formed board, for player p ∈ {1,2} and a valid move, `make_move`
sets the placed cell to p, flips to p exactly the in-range orthogonal neighbors
that held 3 − p immediately before the call, changes no other cell (diagonal
neighbors included), and its `captures` counter is exactly the number k ≤ 4 of
orthogonal sides carrying enemy pieces. -/
theorem make_move_correct (b : Board) (row col : Int) (p : Nat)
    (hwf : WF b) (hp : p = 1 ∨ p = 2) (hv : is_valid_move b row col = true) :
    (∀ r' c' : Int, (make_move b row col p).1 r' c' =
        if r' = row ∧ c' = col then p
        else if (r', c') ∈ directions.map (nbr row col) ∧ inRangeB r' c' = true ∧
                b r' c' = 3 - p then p
        else b r' c')
    ∧ (make_move b row col p).2 =
        ((directions.map (nbr row col)).filter
          (fun q => inRangeB q.1 q.2 && (b q.1 q.2 == 3 - p))).length
    ∧ (make_move b row col p).2 ≤ 4 := by
  refine ⟨fun r' c' => ?_, ?_, ?_⟩
  · rw [(make_move_spec b row col p).1 r' c']
    by_cases hpc : r' = row ∧ c' = col
    · rw [if_pos hpc]
      obtain ⟨hr, hc⟩ := hpc
      subst hr; subst hc
      rw [if_neg (placed_not_flipped b r' c' p), setCell_self]
    · rw [if_neg hpc, setCell_other _ _ _ _ hpc]
      by_cases hm : (r', c') ∈ (directions.filter (eligible b row col p)).map (nbr row col)
      · rw [if_pos hm, if_pos ((flipped_mem_iff hwf hp row col r' c').mp hm)]
      · rw [if_neg hm, if_neg (fun hc => hm ((flipped_mem_iff hwf hp row col r' c').mpr hc))]
  · exact make_move_captures_enemy_count hwf hp row col
  · rw [(make_move_spec b row col p).2]
    calc (directions.filter (eligible b row col p)).length
        ≤ directions.length := List.length_filter_le _ _
      _ = 4 := by simp [directions]

/-- Witness for C1: the spec's four-enemy-neighbors scenario at (3,3); the
neighbor (3,4) flips to player 1, the diagonal (2,2) stays empty, and the
capture count is the number of enemy sides, 4. -/
theorem make_move_correct_witness :
    (make_move crossBoard 3 3 1).1 3 3 = 1 ∧
    (make_move crossBoard 3 3 1).1 3 4 = 1 ∧
    (make_move crossBoard 3 3 1).1 2 2 = 0 ∧
    (make_move crossBoard 3 3 1).2 =
      ((directions.map (nbr 3 3)).filter
        (fun q => inRangeB q.1 q.2 && (crossBoard q.1 q.2 == 3 - 1))).length ∧
    (make_move crossBoard 3 3 1).2 ≤ 4 := by
  have h := make_move_correct crossBoard 3 3 1 (by decide) (Or.inl rfl) (by decide)
  refine ⟨?_, ?_, ?_, h.2.1, h.2.2⟩
  · rw [h.1 3 3]; decide
  · rw [h.1 3 4]; decide
  · rw [h.1 2 2]; decide

/-- C4: for a valid move, evaluating the four capture directions sequentially
(in the code's order or any permutation of it), testing each neighbor against
the partially updated board, yields the same board as computing all eligible
captures from the pre-move board and applying them simultaneously. -/
theorem capture_order_irrelevant (b : Board) (row col : Int) (p : Nat)
    (hv : is_valid_move b row col = true) :
    (∀ r' c' : Int,
        (make_move b row col p).1 r' c' = make_move_simul b row col p r' c')
    ∧ (∀ ds : List (Int × Int), ds.Perm directions →
        ∀ r' c' : Int,
          (make_move_dirs b row col p ds).1 r' c' = make_move_simul b row col p r' c') := by
  constructor
  · intro r' c'
    rw [(make_move_spec b row col p).1 r' c']
    rfl
  · intro ds hperm r' c'
    rw [(make_move_dirs_spec b row col p ds hperm).1 r' c']
    show _ = if (r', c') ∈ (directions.filter (eligible b row col p)).map (nbr row col)
      then p else setCell b row col p r' c'
    have hiff : ((r', c') ∈ (ds.filter (eligible b row col p)).map (nbr row col)) ↔
        ((r', c') ∈ (directions.filter (eligible b row col p)).map (nbr row col)) :=
      ((hperm.filter _).map _).mem_iff
    by_cases hm : (r', c') ∈ (ds.filter (eligible b row col p)).map (nbr row col)
    · rw [if_pos hm, if_pos (hiff.mp hm)]
    · rw [if_neg hm, if_neg (fun hc => hm (hiff.mpr hc))]

/-- Witness for C4: the reversed direction order gives the same board as the
simultaneous formulation on the four-enemy scenario. -/
theorem capture_order_irrelevant_witness :
    (make_move_dirs crossBoard 3 3 1 [(0, 1), (0, -1), (1, 0), (-1, 0)]).1 3 4 =
      make_move_simul crossBoard 3 3 1 3 4 ∧
    (make_move crossBoard 3 3 1).1 2 3 = make_move_simul crossBoard 3 3 1 2 3 := by
  have h := capture_order_irrelevant crossBoard 3 3 1 (by decide)
  exact ⟨h.2 [(0, 1), (0, -1), (1, 0), (-1, 0)] (by decide) 3 4, h.1 2 3⟩

theorem full_iff_no_empty (b : Board) : is_board_full b = true ↔ count_empty b = 0 := by
  rw [is_board_full, count_empty, List.length_eq_zero, List.filter_eq_nil_iff,
    List.all_eq_true]
  constructor
  · intro h q hq
    simpa using h q hq
  · intro h q hq
    simpa using h q hq

/-- C3: the outcome is undetermined (`none`) exactly while an empty cell
remains; on a full board it is Player1Wins iff player 1's count exceeds
player 2's, Player2Wins in the symmetric case, and Tie iff the counts agree. -/
theorem game_outcome_correct (b : Board) :
    (check_game_over b = none ↔ count_empty b ≠ 0) ∧
    (count_empty b = 0 →
      ((check_game_over b = some GameOutcome.player1Wins ↔
          (count_pieces b).1 > (count_pieces b).2) ∧
       (check_game_over b = some GameOutcome.player2Wins ↔
          (count_pieces b).2 > (count_pieces b).1) ∧
       (check_game_over b = some GameOutcome.tie ↔
          (count_pieces b).1 = (count_pieces b).2))) := by
  by_cases hf : is_board_full b = true
  · have he : count_empty b = 0 := (full_iff_no_empty b).mp hf
    rcases Nat.lt_trichotomy (count_pieces b).1 (count_pieces b).2 with hlt | heq | hgt
    · have hc : check_game_over b = some GameOutcome.player2Wins := by
        rw [check_game_over, if_pos hf, if_neg (by omega), if_pos (by omega)]
      refine ⟨by simp [hc, he], fun _ => ⟨?_, ?_, ?_⟩⟩
      · simp only [hc, Option.some.injEq]
        constructor
        · intro h; exact absurd h (by simp)
        · intro h; omega
      · simp [hc]; omega
      · simp only [hc, Option.some.injEq]
        constructor
        · intro h; exact absurd h (by simp)
        · intro h; omega
    · have hc : check_game_over b = some GameOutcome.tie := by
        rw [check_game_over, if_pos hf, if_neg (by omega), if_neg (by omega)]
      refine ⟨by simp [hc, he], fun _ => ⟨?_, ?_, ?_⟩⟩
      · simp only [hc, Option.some.injEq]
        constructor
        · intro h; exact absurd h (by simp)
        · intro h; omega
      · simp only [hc, Option.some.injEq]
        constructor
        · intro h; exact absurd h (by simp)
        · intro h; omega
      · simp [hc]; omega
    · have hc : check_game_over b = some GameOutcome.player1Wins := by
        rw [check_game_over, if_pos hf, if_pos (by omega)]
      refine ⟨by simp [hc, he], fun _ => ⟨?_, ?_, ?_⟩⟩
      · simp [hc]; omega
      · simp only [hc, Option.some.injEq]
        constructor
        · intro h; exact absurd h (by simp)
        · intro h; omega
      · simp only [hc, Option.some.injEq]
        constructor
        · intro h; exact absurd h (by simp)
        · intro h; omega
  · have hne : count_empty b ≠ 0 := fun h0 => hf ((full_iff_no_empty b).mpr h0)
    have hc : check_game_over b = none := by rw [check_game_over, if_neg hf]
    exact ⟨by simp [hc, hne], fun he => absurd he hne⟩

/-- Witness for C3: on the full 33-vs-31 board (the spec's concrete scenario)
the outcome is Player1Wins. -/
theorem game_outcome_correct_witness :
    check_game_over fullBoard33 = some GameOutcome.player1Wins := by
  have h := game_outcome_correct fullBoard33
  exact ((h.2 (by decide)).1).mpr (by decide)

/-! ### The fallback selector picks a maximal-score move -/

theorem foldl_max_le_self : ∀ (xs : List Int) (x : Int), x ≤ xs.foldl max x := by
  intro xs
  induction xs with
  | nil => intro x; exact le_refl x
  | cons a t ih =>
      intro x
      exact le_trans (le_max_left x a) (ih (max x a))

theorem foldl_max_mem : ∀ (xs : List Int) (x : Int), xs.foldl max x ∈ x :: xs := by
  intro xs
  induction xs with
  | nil => intro x; simp [List.foldl]
  | cons a t ih =>
      intro x
      have h := ih (max x a)
      rcases max_choice x a with hm | hm <;>
        rcases List.mem_cons.mp h with h' | h' <;>
        simp only [List.foldl_cons] <;>
        rw [List.mem_cons, List.mem_cons]
      · exact Or.inl (h'.trans hm)
      · exact Or.inr (Or.inr h')
      · exact Or.inr (Or.inl (h'.trans hm))
      · exact Or.inr (Or.inr h')

theorem foldl_max_ge : ∀ (xs : List Int) (x y : Int), y ∈ xs → y ≤ xs.foldl max x := by
  intro xs
  induction xs with
  | nil => intro x y hy; cases hy
  | cons a t ih =>
      intro x y hy
      rcases List.mem_cons.mp hy with rfl | hyt
      · exact le_trans (le_max_right x y) (foldl_max_le_self t (max x y))
      · exact ih (max x a) y hyt

/-- Python's `max` of a nonempty list is a member and an upper bound. -/
theorem list_max_spec {l : List Int} {m : Int} (h : list_max l = some m) :
    m ∈ l ∧ ∀ y ∈ l, y ≤ m := by
  cases l with
  | nil => cases h
  | cons x xs =>
      have hm : m = xs.foldl max x := by
        simpa [list_max] using h.symm
      subst hm
      refine ⟨foldl_max_mem xs x, fun y hy => ?_⟩
      rcases List.mem_cons.mp hy with rfl | hyt
      · exact foldl_max_le_self xs y
      · exact foldl_max_ge xs x y hyt

theorem list_max_of_ne_nil {l : List Int} (h : l ≠ []) : ∃ m, list_max l = some m := by
  cases l with
  | nil => exact absurd rfl h
  | cons x xs => exact ⟨xs.foldl max x, rfl⟩

/-- `best_moves` on a nonempty move list is nonempty and consists of moves of
maximal score. -/
theorem best_moves_spec (b : Board) (moves : List (Int × Int)) (p : Nat)
    (hne : moves ≠ []) :
    best_moves b moves p ≠ [] ∧
    ∀ m ∈ best_moves b moves p, m ∈ moves ∧
      ∀ m' ∈ moves, move_score b p m' ≤ move_score b p m := by
  have hmapne : moves.map (move_score b p) ≠ [] := by
    simpa using hne
  obtain ⟨s, hs⟩ := list_max_of_ne_nil hmapne
  obtain ⟨hsmem, hsub⟩ := list_max_spec hs
  have hbm : best_moves b moves p =
      moves.filter (fun m => move_score b p m == s) := by
    rw [best_moves, hs]
  obtain ⟨m0, hm0, hm0s⟩ := List.mem_map.mp hsmem
  constructor
  · rw [hbm]
    exact List.ne_nil_of_mem
      (List.mem_filter.mpr ⟨hm0, by simp [hm0s]⟩)
  · intro m hm
    rw [hbm] at hm
    obtain ⟨hmm, hms⟩ := List.mem_filter.mp hm
    have hms' : move_score b p m = s := by simpa using hms
    exact ⟨hmm, fun m' hm' => hms' ▸ hsub _ (List.mem_map_of_mem _ hm')⟩

theorem cpc_le_four (b : Board) (row col : Int) (p : Nat) :
    count_potential_captures b row col p ≤ 4 :=
  calc (agent_directions.filter _).length
      ≤ agent_directions.length := List.length_filter_le _ _
    _ = 4 := by simp [agent_directions]

theorem length_filter_lt_of_mem_false {α : Type} {p : α → Bool} {l : List α} {a : α}
    (ha : a ∈ l) (hpa : p a = false) : (l.filter p).length < l.length := by
  induction l with
  | nil => cases ha
  | cons x t ih =>
      rcases List.mem_cons.mp ha with rfl | hat
      · simp only [List.filter_cons, hpa, Bool.false_eq_true, if_false, List.length_cons]
        exact Nat.lt_succ_of_le (List.length_filter_le _ _)
      · simp only [List.filter_cons, List.length_cons]
        split
        · simpa using ih hat
        · have := List.length_filter_le p t
          have := ih hat
          omega

/-- When one direction points off the board, at most 3 captures are possible. -/
theorem cpc_le_three {b : Board} {row col : Int} {p : Nat} {d : Int × Int}
    (hd : d ∈ agent_directions)
    (hfalse : inRangeB (row + d.1) (col + d.2) = false) :
    count_potential_captures b row col p ≤ 3 := by
  have hlt := length_filter_lt_of_mem_false
    (p := fun e => inRangeB (row + e.1) (col + e.2) &&
      (b (row + e.1) (col + e.2) == 3 - p)) hd (by simp [hfalse])
  have hlen : agent_directions.length = 4 := by simp [agent_directions]
  rw [count_potential_captures]
  omega

/-- A corner move scores at least 100. -/
theorem score_corner_ge (b : Board) (p : Nat) {m : Int × Int}
    (hm : m ∈ corner_cells) : 100 ≤ move_score b p m := by
  have h0 : (0 : Int) ≤ 20 * (count_potential_captures b m.1 m.2 p : Int) := by positivity
  simp only [move_score]
  rw [if_pos hm]
  split_ifs <;> omega

/-- A non-corner move scores at most 95: next to a corner at most
−50+80+15 = 45, on an edge at most 30+60 = 90 (one direction is off the board
and the center bonus is impossible), and elsewhere at most 0+80+15 = 95. -/
theorem score_non_corner_le (b : Board) (p : Nat) {m : Int × Int}
    (hm : m ∉ corner_cells) : move_score b p m ≤ 95 := by
  have h4 : count_potential_captures b m.1 m.2 p ≤ 4 := cpc_le_four b m.1 m.2 p
  simp only [move_score]
  rw [if_neg hm]
  by_cases hadj : m ∈ corner_adjacent
  · rw [if_pos hadj]
    split_ifs <;> omega
  · rw [if_neg hadj]
    by_cases hedge : m.1 = 0 ∨ m.1 = 7 ∨ m.2 = 0 ∨ m.2 = 7
    · rw [if_pos hedge]
      have hcd : ¬ (center_dist2 m < 4) := by
        simp only [center_dist2]
        omega
      rw [if_neg (fun hcont => hcd hcont.2)]
      have h3 : count_potential_captures b m.1 m.2 p ≤ 3 := by
        rcases hedge with h | h | h | h
        · exact cpc_le_three (d := (-1, 0)) (by simp [agent_directions])
            (by rw [h]; rw [inRangeB, decide_eq_false_iff_not]; omega)
        · exact cpc_le_three (d := (1, 0)) (by simp [agent_directions])
            (by rw [h]; rw [inRangeB, decide_eq_false_iff_not]; omega)
        · exact cpc_le_three (d := (0, -1)) (by simp [agent_directions])
            (by rw [h]; rw [inRangeB, decide_eq_false_iff_not]; omega)
        · exact cpc_le_three (d := (0, 1)) (by simp [agent_directions])
            (by rw [h]; rw [inRangeB, decide_eq_false_iff_not]; omega)
      omega
    · rw [if_neg hedge]
      split_ifs <;> omega

/-- C2: on a nonempty move list the fallback selector (for every outcome of the
uniform tie-break, modelled by `pick`) returns a member of the list of maximal
score under the corner/corner-adjacent/edge/captures/center policy embodied in
`move_score`; when the list contains corner (0,0) and otherwise only non-corner
cells the result is (0,0). -/
theorem strategic_fallback_max (b : Board) (moves : List (Int × Int)) (p : Nat)
    (pick : Nat) (hne : moves ≠ []) :
    ∃ m, get_strategic_fallback_move b moves p pick = some m ∧ m ∈ moves ∧
      (∀ m' ∈ moves, move_score b p m' ≤ move_score b p m) ∧
      (((0, 0) ∈ moves ∧ ∀ m' ∈ moves, m' ∈ corner_cells → m' = (0, 0)) →
        m = (0, 0)) := by
  obtain ⟨hbne, hall⟩ := best_moves_spec b moves p hne
  have hlen : 0 < (best_moves b moves p).length := List.length_pos.mpr hbne
  have hidx : pick % (best_moves b moves p).length < (best_moves b moves p).length :=
    Nat.mod_lt _ hlen
  have hmem : (best_moves b moves p).get ⟨_, hidx⟩ ∈ best_moves b moves p :=
    List.get_mem _ _ _
  refine ⟨(best_moves b moves p).get ⟨_, hidx⟩, ?_, (hall _ hmem).1,
    (hall _ hmem).2, ?_⟩
  · rw [get_strategic_fallback_move,
      if_neg (by simp [List.isEmpty_iff, hne])]
    exact List.get?_eq_get hidx
  · rintro ⟨hc0, honly⟩
    by_contra hne0
    have hm_nc : (best_moves b moves p).get ⟨_, hidx⟩ ∉ corner_cells :=
      fun hc => hne0 (honly _ (hall _ hmem).1 hc)
    have h95 := score_non_corner_le b p hm_nc
    have h100 := score_corner_ge b p (m := ((0 : Int), (0 : Int)))
      (by simp [corner_cells])
    have hle := (hall _ hmem).2 (0, 0) hc0
    omega

/-- Witness for C2: with valid moves {(0,0), (3,3)} on the empty board the
fallback returns the corner (0,0). -/
theorem strategic_fallback_max_witness :
    get_strategic_fallback_move emptyBoard [(0, 0), (3, 3)] 1 0 = some (0, 0) := by
  obtain ⟨m, hm, _, _, h00⟩ :=
    strategic_fallback_max emptyBoard [(0, 0), (3, 3)] 1 0 (by decide)
  rw [hm, h00 ⟨by decide, by decide⟩]

/-! ### Conservation of cells under moves -/

theorem length_filter_add_one {α : Type} {l : List α} {m : α}
    (hm : m ∈ l) (hnd : l.Nodup) {P Q : α → Bool}
    (hPm : P m = true) (hQm : Q m = false)
    (hPQ : ∀ x ∈ l, x ≠ m → P x = Q x) :
    (l.filter P).length = (l.filter Q).length + 1 := by
  induction l with
  | nil => cases hm
  | cons x t ih =>
      have hnd' := List.nodup_cons.mp hnd
      rcases List.mem_cons.mp hm with rfl | hmt
      · have hQP : ∀ y ∈ t, P y = Q y :=
          fun y hy => hPQ y (List.mem_cons_of_mem _ hy) (fun h => hnd'.1 (h ▸ hy))
        rw [List.filter_cons, List.filter_cons, if_pos hPm,
          if_neg (by simp [hQm]), List.length_cons, List.filter_congr hQP]
      · have hxm : x ≠ m := fun h => hnd'.1 (h ▸ hmt)
        have hPQx : P x = Q x := hPQ x (List.mem_cons_self _ _) hxm
        have ihh := ih hmt hnd'.2
          (fun y hy hym => hPQ y (List.mem_cons_of_mem _ hy) hym)
        rw [List.filter_cons, List.filter_cons, hPQx]
        cases hQx : Q x <;> simp [hQx, List.length_cons, ihh]

theorem length_filter_partition {α : Type} {l : List α} {P Q R : α → Bool}
    (h : ∀ x ∈ l, (P x = true ∧ Q x = false ∧ R x = false) ∨
                  (P x = false ∧ Q x = true ∧ R x = false) ∨
                  (P x = false ∧ Q x = false ∧ R x = true)) :
    (l.filter P).length + (l.filter Q).length + (l.filter R).length = l.length := by
  induction l with
  | nil => simp
  | cons x t ih =>
      have hx := h x (List.mem_cons_self _ _)
      have iht := ih (fun y hy => h y (List.mem_cons_of_mem _ hy))
      rcases hx with ⟨h1, h2, h3⟩ | ⟨h1, h2, h3⟩ | ⟨h1, h2, h3⟩ <;>
        simp [List.filter_cons, h1, h2, h3, List.length_cons] <;> omega

theorem mem_cellsList {r c : Int} (h : inRangeB r c = true) : (r, c) ∈ cellsList := by
  rw [inRangeB, decide_eq_true_eq] at h
  obtain ⟨h1, h2, h3, h4⟩ := h
  have hr : r.toNat < 8 := by omega
  have hc : c.toNat < 8 := by omega
  have hmem : (((r.toNat : Nat) : Int), ((c.toNat : Nat) : Int)) ∈ cellsList := by
    rw [cellsList]
    refine List.mem_flatMap.mpr ⟨r.toNat, List.mem_range.mpr hr, ?_⟩
    exact List.mem_map_of_mem (fun b : Nat => ((r.toNat : Int), (b : Int)))
      (List.mem_range.mpr hc)
  rwa [Int.toNat_of_nonneg h1, Int.toNat_of_nonneg h3] at hmem

theorem cellsList_inRange : ∀ q ∈ cellsList, inRangeB q.1 q.2 = true := by decide

theorem cellsList_nodup : cellsList.Nodup := by decide

/-- Every cell of the post-move board holds either `p` or its old value. -/
theorem make_move_cases (b : Board) (row col : Int) (p : Nat) (r' c' : Int) :
    (make_move b row col p).1 r' c' = p ∨ (make_move b row col p).1 r' c' = b r' c' := by
  rw [(make_move_spec b row col p).1 r' c']
  split
  · exact Or.inl rfl
  · simp only [setCell]
    split
    · exact Or.inl rfl
    · exact Or.inr rfl

theorem WF_make_move {b : Board} (hwf : WF b) {row col : Int} {p : Nat}
    (hp : p = 1 ∨ p = 2) : WF (make_move b row col p).1 := by
  intro i j
  rcases make_move_cases b row col p ((i : Nat) : Int) ((j : Nat) : Int) with h | h
  · rw [h]; omega
  · rw [h]; exact hwf i j

theorem Reachable_WF : ∀ {b : Board}, Reachable b → WF b := by
  intro b h
  induction h with
  | init => intro i j; simp [emptyBoard]
  | step b r c p _ hv hp ih => exact WF_make_move ih hp

/-- A flipped cell was occupied on the pre-move board. -/
theorem flipped_occupied {b : Board} {row col r' c' : Int} {p : Nat}
    (h : (r', c') ∈ (directions.filter (eligible b row col p)).map (nbr row col)) :
    b r' c' ≠ 0 := by
  obtain ⟨d, hd, hnd⟩ := List.mem_map.mp h
  have helig := (List.mem_filter.mp hd).2
  have h1 : row + d.1 = r' := congrArg Prod.fst hnd
  have h2 : col + d.2 = c' := congrArg Prod.snd hnd
  simp only [eligible, h1, h2, Bool.and_eq_true, bne_iff_ne, ne_eq] at helig
  exact helig.1.2

/-- `make_move` on a valid move raises the occupied-cell count by exactly 1:
the placed cell becomes occupied, captures only convert ownership. -/
theorem occupied_make_move (b : Board) (row col : Int) (p : Nat)
    (hv : is_valid_move b row col = true) (hp : p = 1 ∨ p = 2) :
    count_occupied (make_move b row col p).1 = count_occupied b + 1 := by
  have hvr : inRangeB row col = true ∧ b row col = 0 := by
    rw [is_valid_move, Bool.and_eq_true] at hv
    exact ⟨hv.1, by simpa using hv.2⟩
  have hm : ((row, col) : Int × Int) ∈ cellsList := mem_cellsList hvr.1
  apply length_filter_add_one hm cellsList_nodup
  · have hpl : (make_move b row col p).1 row col = p := by
      rw [(make_move_spec b row col p).1 row col,
        if_neg (placed_not_flipped b row col p), setCell_self]
    show ((make_move b row col p).1 row col != 0) = true
    rw [hpl]
    rcases hp with rfl | rfl <;> decide
  · show (b row col != 0) = false
    simp [hvr.2]
  · intro q hq hne
    show ((make_move b row col p).1 q.1 q.2 != 0) = (b q.1 q.2 != 0)
    rw [(make_move_spec b row col p).1 q.1 q.2]
    by_cases hmem : (q.1, q.2) ∈ (directions.filter (eligible b row col p)).map (nbr row col)
    · rw [if_pos hmem]
      have hocc := flipped_occupied hmem
      rcases hp with rfl | rfl <;> simp [hocc]
    · rw [if_neg hmem]
      have hq_ne : ¬(q.1 = row ∧ q.2 = col) := by
        intro hcont
        exact hne (Prod.ext hcont.1 hcont.2)
      rw [setCell_other _ _ _ _ hq_ne]

theorem counts_sum_of_WF {b : Board} (hwf : WF b) :
    (count_pieces b).1 + (count_pieces b).2 + count_empty b = 64 := by
  have hlen : cellsList.length = 64 := by decide
  show (cellsList.filter _).length + (cellsList.filter _).length +
    (cellsList.filter _).length = 64
  rw [← hlen]
  apply length_filter_partition
  intro q hq
  have hle := WF_le hwf (cellsList_inRange q hq)
  have hval : b q.1 q.2 = 0 ∨ b q.1 q.2 = 1 ∨ b q.1 q.2 = 2 := by omega
  rcases hval with h | h | h <;> simp [h]

/-- C5: on every board reachable from the all-empty board by valid moves the
two piece counts and the empty count sum to 64, and every valid `make_move`
raises the occupied-cell count by exactly 1 (captures convert ownership, not
occupancy). -/
theorem reachable_conservation :
    (∀ b : Board, Reachable b →
      (count_pieces b).1 + (count_pieces b).2 + count_empty b = 64) ∧
    (∀ (b : Board) (r c : Int) (p : Nat), is_valid_move b r c = true →
      (p = 1 ∨ p = 2) →
      count_occupied (make_move b r c p).1 = count_occupied b + 1) :=
  ⟨fun _ hb => counts_sum_of_WF (Reachable_WF hb),
   fun b r c p hv hp => occupied_make_move b r c p hv hp⟩

/-- Witness for C5: the all-empty board, and the first move placed at (3,3). -/
theorem reachable_conservation_witness :
    (count_pieces emptyBoard).1 + (count_pieces emptyBoard).2 +
      count_empty emptyBoard = 64 ∧
    count_occupied (make_move emptyBoard 3 3 1).1 = count_occupied emptyBoard + 1 :=
  ⟨reachable_conservation.1 emptyBoard Reachable.init,
   reachable_conservation.2 emptyBoard 3 3 1 (by decide) (Or.inl rfl)⟩

/-! ### The return value of make_move (C6) -/

/-- C6 counterexample: on the four-enemy scenario `make_move` flips four cells
(its internal `captures` counter reaches 4), yet the Python function returns
`None` — no caller can obtain the flipped coordinates from it. -/
theorem make_move_returns_none_counterexample :
    make_move_ret crossBoard 3 3 1 = none ∧ (make_move crossBoard 3 3 1).2 = 4 :=
  ⟨rfl, by decide⟩

/-- C6 amended: `make_move` does not return the set of flipped coordinates —
its Python return value is always `None`; the flips are recorded only in the
local `captures` counter, which equals the number of in-range orthogonal enemy
neighbors and may be zero. -/
theorem make_move_ret_and_counter (b : Board) (row col : Int) (p : Nat)
    (hwf : WF b) (hp : p = 1 ∨ p = 2) (hv : is_valid_move b row col = true) :
    make_move_ret b row col p = none ∧
    (make_move b row col p).2 =
      ((directions.map (nbr row col)).filter
        (fun q => inRangeB q.1 q.2 && (b q.1 q.2 == 3 - p))).length :=
  ⟨rfl, make_move_captures_enemy_count hwf hp row col⟩

/-- Witness for C6 (amended): the first move on the empty board returns `None`
and counts zero captures. -/
theorem make_move_ret_and_counter_witness :
    make_move_ret emptyBoard 3 3 1 = none ∧ (make_move emptyBoard 3 3 1).2 = 0 := by
  have h := make_move_ret_and_counter emptyBoard 3 3 1 (by decide) (Or.inl rfl) (by decide)
  refine ⟨h.1, ?_⟩
  rw [h.2]
  decide

/-! ### make_move has no precondition check (C7) -/

/-- C7 counterexample: (0,0) is occupied by player 2, so the move is invalid,
yet the `make_move` call signals no error and the state changes: the cell is
silently overwritten to player 1. -/
theorem make_move_unchecked_counterexample :
    is_valid_move occBoard 0 0 = false ∧
    make_move_call occBoard 0 0 1 = Except.ok (make_move occBoard 0 0 1) ∧
    occBoard 0 0 = 2 ∧ (make_move occBoard 0 0 1).1 0 0 = 1 :=
  ⟨by decide, rfl, rfl, by decide⟩

/-- C7 amended: `make_move` performs no precondition check: at any in-range
cell it returns normally — never signalling an invalid-argument condition —
and writes `player` into the cell even when the move is invalid because the
cell is occupied; callers are expected to run `is_valid_move` first. -/
theorem make_move_no_precondition_check (b : Board) (row col : Int) (p : Nat)
    (hin : inRangeB row col = true) :
    make_move_call b row col p = Except.ok (make_move b row col p) ∧
    (make_move b row col p).1 row col = p := by
  refine ⟨by rw [make_move_call, if_pos hin], ?_⟩
  rw [(make_move_spec b row col p).1 row col,
    if_neg (placed_not_flipped b row col p), setCell_self]

/-- Witness for C7 (amended): the occupied corner is overwritten without error. -/
theorem make_move_no_precondition_check_witness :
    make_move_call occBoard 0 0 1 = Except.ok (make_move occBoard 0 0 1) ∧
    (make_move occBoard 0 0 1).1 0 0 = 1 :=
  make_move_no_precondition_check occBoard 0 0 1 (by decide)

/-! ### Fallback on an empty move list (C8) -/

/-- C8 counterexample: on an empty valid-move list groq_agent's fallback does
not signal an error — the call returns normally with the value `None`, which
is not a move from the list. -/
theorem groq_fallback_silent_none_counterexample :
    groq_fallback_call emptyBoard [] 1 0 = Except.ok none := rfl

/-- C8 amended: google_agent's `_get_best_strategic_move` does signal an error
on an empty list (`ValueError` from `max()` on an empty sequence), but
groq_agent's `_get_strategic_fallback_move` silently returns `None` instead;
on a nonempty list both return a member of the list. -/
theorem fallback_empty_list_behavior :
    (∀ (b : Board) (p pick : Nat), groq_fallback_call b [] p pick = Except.ok none) ∧
    (∀ (b : Board) (p pick : Nat),
      google_fallback_call b [] p pick =
        Except.error "max() arg is an empty sequence") ∧
    (∀ (b : Board) (moves : List (Int × Int)) (p pick : Nat), moves ≠ [] →
      ∃ m ∈ moves, groq_fallback_call b moves p pick = Except.ok (some m) ∧
        google_fallback_call b moves p pick = Except.ok (some m)) := by
  refine ⟨fun b p pick => rfl, fun b p pick => rfl, fun b moves p pick hne => ?_⟩
  obtain ⟨hbne, hall⟩ := best_moves_spec b moves p hne
  have hlen : 0 < (best_moves b moves p).length := List.length_pos.mpr hbne
  have hidx : pick % (best_moves b moves p).length < (best_moves b moves p).length :=
    Nat.mod_lt _ hlen
  refine ⟨(best_moves b moves p).get ⟨_, hidx⟩,
    (hall _ (List.get_mem _ _ _)).1, ?_, ?_⟩
  · rw [groq_fallback_call, get_strategic_fallback_move,
      if_neg (by simp [List.isEmpty_iff, hne]), List.get?_eq_get hidx]
  · rw [google_fallback_call, if_neg (by simp [List.isEmpty_iff, hne]),
      List.get?_eq_get hidx]

/-- Witness for C8 (amended): both empty-list behaviours at concrete inputs,
and a nonempty list for which groq's fallback returns its only member. -/
theorem fallback_empty_list_behavior_witness :
    groq_fallback_call emptyBoard [] 2 0 = Except.ok none ∧
    google_fallback_call emptyBoard [] 2 0 =
      Except.error "max() arg is an empty sequence" ∧
    groq_fallback_call emptyBoard [(0, 0)] 1 0 = Except.ok (some (0, 0)) := by
  refine ⟨fallback_empty_list_behavior.1 emptyBoard 2 0,
    fallback_empty_list_behavior.2.1 emptyBoard 2 0, ?_⟩
  obtain ⟨m, hmem, hg, _⟩ :=
    fallback_empty_list_behavior.2.2 emptyBoard [(0, 0)] 1 0 (by decide)
  have hm : m = (0, 0) := by simpa using hmem
  rw [hg, hm]

/-! ### The loop repairs invalid proposals with a random move (C9) -/

theorem get_valid_moves_valid {b : Board} {m : Int × Int}
    (h : m ∈ get_valid_moves b) : is_valid_move b m.1 m.2 = true := by
  rw [get_valid_moves] at h
  obtain ⟨r, _, hm⟩ := List.mem_flatMap.mp h
  obtain ⟨c, _, hcm⟩ := List.mem_filterMap.mp hm
  by_cases hv : is_valid_move b (r : Int) (c : Int) = true
  · rw [if_pos hv] at hcm
    obtain rfl := Option.some.inj hcm
    exact hv
  · rw [if_neg hv] at hcm
    cases hcm

/-- C9 counterexample: on the empty board with the invalid proposal (−1,−1),
the loop's repair path draws uniformly from all of `get_valid_moves`; the
tie-break outcome `pick = 27` applies (3,3) — the resulting board holds (3,3)
while corner (0,0) stays empty — although (3,3) is not of maximal heuristic
score ((0,0), also a valid move, scores strictly higher).  The applied move is
therefore a uniformly random valid move, not one chosen by the fallback
selector's scoring. -/
theorem loop_random_counterexample :
    is_valid_move emptyBoard (-1) (-1) = false ∧
    (loop_step emptyBoard 1 (Except.ok (-1, -1)) 27).1 3 3 = 1 ∧
    (loop_step emptyBoard 1 (Except.ok (-1, -1)) 27).1 0 0 = 0 ∧
    (3, 3) ∈ get_valid_moves emptyBoard ∧ (0, 0) ∈ get_valid_moves emptyBoard ∧
    move_score emptyBoard 1 (3, 3) < move_score emptyBoard 1 (0, 0) :=
  ⟨by decide, by decide, by decide, by decide, by decide, by decide⟩

/-- C9 amended: an invalid proposal (or a provider error) is repaired inside
`run_game_loop` by a uniformly random member of `get_valid_moves` — not by the
agents' heuristic scoring, which lives inside the agents themselves: for every
tie-break outcome the applied move is legal, no exception propagates, and the
turn passes to the other player. -/
theorem loop_invalid_proposal_random (b : Board) (player : Nat) (row col : Int)
    (e : String) (pick : Nat)
    (hinv : is_valid_move b row col = false) (hne : get_valid_moves b ≠ []) :
    (get_valid_moves b).getD (pick % (get_valid_moves b).length) (0, 0) ∈
      get_valid_moves b ∧
    is_valid_move b
      ((get_valid_moves b).getD (pick % (get_valid_moves b).length) (0, 0)).1
      ((get_valid_moves b).getD (pick % (get_valid_moves b).length) (0, 0)).2 = true ∧
    loop_step b player (Except.ok (row, col)) pick =
      ((make_move b
          ((get_valid_moves b).getD (pick % (get_valid_moves b).length) (0, 0)).1
          ((get_valid_moves b).getD (pick % (get_valid_moves b).length) (0, 0)).2
          player).1, 3 - player) ∧
    loop_step b player (Except.error e) pick =
      ((make_move b
          ((get_valid_moves b).getD (pick % (get_valid_moves b).length) (0, 0)).1
          ((get_valid_moves b).getD (pick % (get_valid_moves b).length) (0, 0)).2
          player).1, 3 - player) := by
  have hlen : 0 < (get_valid_moves b).length := List.length_pos.mpr hne
  have hidx : pick % (get_valid_moves b).length < (get_valid_moves b).length :=
    Nat.mod_lt _ hlen
  have hmg : (get_valid_moves b).getD (pick % (get_valid_moves b).length) (0, 0) =
      (get_valid_moves b).get ⟨_, hidx⟩ := by
    simp [List.getD_eq_getElem?_getD, List.getElem?_eq_getElem hidx,
      List.get_eq_getElem]
  have hmem : (get_valid_moves b).getD (pick % (get_valid_moves b).length) (0, 0) ∈
      get_valid_moves b := by
    rw [hmg]
    exact List.get_mem _ _ _
  refine ⟨hmem, get_valid_moves_valid hmem, ?_, ?_⟩
  · simp only [loop_step, hinv, Bool.false_eq_true, if_false,
      if_neg (show ¬((get_valid_moves b).isEmpty = true) by
        simp [List.isEmpty_iff, hne])]
  · simp only [loop_step,
      if_neg (show ¬((get_valid_moves b).isEmpty = true) by
        simp [List.isEmpty_iff, hne])]

/-- Witness for C9 (amended): the invalid proposal (−1,−1) on the empty board
with tie-break 5 leads to the legal move (0,5) and the turn passing to
player 2. -/
theorem loop_invalid_proposal_random_witness :
    loop_step emptyBoard 1 (Except.ok (-1, -1)) 5 =
      ((make_move emptyBoard 0 5 1).1, 2) ∧
    is_valid_move emptyBoard 0 5 = true := by
  have h := loop_invalid_proposal_random emptyBoard 1 (-1) (-1) "boom" 5
    (by decide) (by decide)
  have hm : (get_valid_moves emptyBoard).getD
      (5 % (get_valid_moves emptyBoard).length) (0, 0) = (0, 5) := by decide
  rw [hm] at h
  exact ⟨h.2.2.1, h.2.1⟩

/-! ### The agents' capture predictor agrees with the engine (C10) -/

/-- C10: on a well-formed board, for p ∈ {1,2} and any in-range cell, the
agents' `_count_potential_captures` equals the number of cells `make_move`
would flip there: both count the in-range orthogonal neighbors holding the
opponent. -/
theorem agent_engine_capture_agreement (b : Board) (r c : Int) (p : Nat)
    (hwf : WF b) (hp : p = 1 ∨ p = 2) (hin : inRangeB r c = true) :
    count_potential_captures b r c p = (make_move b r c p).2 := by
  rw [(make_move_spec b r c p).2]
  have hcongr : directions.filter (eligible b r c p) =
      directions.filter (fun d => inRangeB (r + d.1) (c + d.2) &&
        (b (r + d.1) (c + d.2) == 3 - p)) :=
    List.filter_congr (fun d _ => eligible_eq_enemy hwf hp r c d)
  rw [count_potential_captures, hcongr]
  have hperm : agent_directions.Perm directions := by decide
  exact (hperm.filter _).length_eq

/-- Witness for C10: on the four-enemy scenario both counts are 4. -/
theorem agent_engine_capture_agreement_witness :
    count_potential_captures crossBoard 3 3 1 = (make_move crossBoard 3 3 1).2 :=
  agent_engine_capture_agreement crossBoard 3 3 1 (by decide) (Or.inl rfl) (by decide)

end TT
